import Mathlib

/-!
Shallow embedding of the FrodoPIR core (brave-experiments/frodo-pir) in Lean 4,
together with theorems settling a list of specification claims.

Machine integers are modelled as `Nat` with explicit reduction modulo `2 ^ 32`
(the `u32` wrapping semantics of the Rust source).  Fallible Rust code
returning `Result` is modelled with `Except`; a Rust panic (an `unwrap` of an
`Err`, or an out-of-bounds index) is modelled by `Option.none` at the point
where the source can abort.
-/

namespace FrodoPIR

/-- The `u32` modulus `Q = 2 ^ 32`. -/
def Q : Nat := 2 ^ 32

/-- Rust `u32::wrapping_add`. -/
def wadd (a b : Nat) : Nat := (a + b) % Q

/-- Rust `u32::wrapping_mul`. -/
def wmul (a b : Nat) : Nat := (a * b) % Q

/-- Rust `u32::wrapping_sub` (for operands already reduced below `Q`). -/
def wsub (a b : Nat) : Nat := (a + (Q - b % Q)) % Q

/-- The single error type of the core (`src/src/errors.rs` plus the
`PIRError` enum of `src/src/api.rs`).  `unexpectedInputSize` is
`ErrorUnexpectedInputSize`, raised by `vec_mult_u32_u32` on a length
mismatch (the spec names this error kind `DimensionMismatch`). -/
inductive PIRErr where
  | unexpectedInputSize
  | serde
  | oprf
  deriving DecidableEq, Repr

/-- `Iterator::collect::<Result<Vec<_>, _>>` over `Option`: map, stopping at
the first `none`. -/
def listMapO {α β : Type} (f : α → Option β) : List α → Option (List β)
  | [] => some []
  | a :: l =>
    match f a with
    | none => none
    | some b =>
      match listMapO f l with
      | none => none
      | some bs => some (b :: bs)

/-- `Iterator::collect::<Result<Vec<_>, _>>` over `Except`: map, stopping at
the first error. -/
def listMapE {α β : Type} (f : α → Except PIRErr β) : List α → Except PIRErr (List β)
  | [] => .ok []
  | a :: l =>
    match f a with
    | .error e => .error e
    | .ok b =>
      match listMapE f l with
      | .error e => .error e
      | .ok bs => .ok (b :: bs)

/-! ## `src/src/utils.rs`, module `lwe` -/

/-- `lwe::get_plaintext_size`: `2u32.pow(plaintext_bits)` (reduced mod `Q`;
the Rust `pow` overflows — and so is out of the modelled range — only for
`plaintext_bits ≥ 32`). -/
def get_plaintext_size (plaintext_bits : Nat) : Nat := 2 ^ plaintext_bits % Q

/-- `lwe::get_rounding_factor`: `(MODULUS / plaintext_size) as u32` with
`MODULUS = 2^32` computed in `u64`; the `as u32` cast truncates mod `Q`. -/
def get_rounding_factor (plaintext_bits : Nat) : Nat :=
  Q / get_plaintext_size plaintext_bits % Q

/-- `lwe::get_rounding_floor`: `get_rounding_factor / 2`. -/
def get_rounding_floor (plaintext_bits : Nat) : Nat :=
  get_rounding_factor plaintext_bits / 2

/-! ## `src/src/utils.rs`, module `matrices` -/

/-- `matrices::vec_mult_u32_u32`: inner product with wrapping multiply and
wrapping add; errors (with `ErrorUnexpectedInputSize`) when the lengths
differ. -/
def vec_mult_u32_u32 (row col : List Nat) : Except PIRErr Nat :=
  if row.length ≠ col.length then
    .error .unexpectedInputSize
  else
    .ok ((row.zip col).foldl (fun acc rc => wadd acc (wmul rc.1 rc.2)) 0)

/-- `matrices::swap_matrix_fmt`: transpose of a rectangular matrix.  The
source reads `width = matrix[0].len()` and pushes `current_row[i]` for each
row; on the rectangular, nonempty matrices of the modelled range this equals
the range/map form below (a short row or an empty matrix would make the
source abort on indexing). -/
def swap_matrix_fmt (matrix : List (List Nat)) : List (List Nat) :=
  (List.range (matrix.headD []).length).map fun i =>
    matrix.map fun r => r.getD i 0

/-! ## `src/src/utils.rs`, module `format` -/

/-- `format::u8_to_bits_le`: bit `i` of a byte, LSB first. -/
def u8_to_bits_le (byte : Nat) : List Bool :=
  (List.range 8).map fun i => 2 ^ i &&& byte != 0

/-- `format::u32_to_bits_le`: the four little-endian bytes of `x`, expanded
to 32 bits LSB-first, truncated to `bit_len` (the source aborts for
`bit_len > 32`, which is outside the modelled range). -/
def u32_to_bits_le (x bit_len : Nat) : List Bool :=
  (([x % 2 ^ 8, x / 2 ^ 8 % 2 ^ 8, x / 2 ^ 16 % 2 ^ 8, x / 2 ^ 24 % 2 ^ 8].map
    u8_to_bits_le).flatten).take bit_len

/-- `format::bits_to_bytes_le`: pack bits into `(len + 7) / 8` bytes; the
source adds `2 ^ (i % 8)` into `bytes[i / 8]` for each set bit `i` (its
index `floor(i as f64 / 8)` is exact and equals `i / 8` for every list the
code can hold). -/
def bits_to_bytes_le (bits : List Bool) : List Nat :=
  (List.range ((bits.length + 7) / 8)).map fun k =>
    ((List.range 8).map fun j => if bits.getD (8 * k + j) false then 2 ^ j else 0).sum

/-- `format::bytes_from_u32_slice`: every limb but the last contributes
`entry_bit_len` little-endian bits; the last limb contributes
`total_bit_len % entry_bit_len` bits — including when that remainder is 0. -/
def bytes_from_u32_slice (v : List Nat) (entry_bit_len total_bit_len : Nat) : List Nat :=
  let remainder := total_bit_len % entry_bit_len
  bits_to_bytes_le
    (((List.range v.length).map fun i =>
      if i ≠ v.length - 1 then u32_to_bits_le (v.getD i 0) entry_bit_len
      else u32_to_bits_le (v.getD i 0) remainder).flatten)

/-! ## `src/src/db.rs` -/

/-- `Database` (`src/src/db.rs`): `entries` is the DB matrix stored
column-major (`entries[i]` is column `i`, of length `m`). -/
structure Database where
  entries : List (List Nat)
  m : Nat
  elem_size : Nat
  plaintext_bits : Nat
  deriving Repr, DecidableEq

/-- `Database::get_matrix_width`: `ceil(elem_size / plaintext_bits)`. -/
def Database.get_matrix_width (elem_size plaintext_bits : Nat) : Nat :=
  elem_size / plaintext_bits + (if elem_size % plaintext_bits ≠ 0 then 1 else 0)

/-- `Database::get_matrix_width_self`. -/
def Database.get_matrix_width_self (db : Database) : Nat :=
  Database.get_matrix_width db.elem_size db.plaintext_bits

/-- `Database::vec_mult`: `vec_mult_u32_u32(row, &self.entries[col_idx]).unwrap()`.
Both the out-of-bounds index and the `unwrap` of an `Err` abort the Rust
process; `none` models that abort. -/
def Database.vec_mult (db : Database) (row : List Nat) (col_idx : Nat) : Option Nat :=
  if col_idx < db.entries.length then
    (vec_mult_u32_u32 row (db.entries.getD col_idx [])).toOption
  else
    none

/-- `BaseParams` (`src/src/db.rs`).  The 32-byte `public_seed` is replaced by
the matrix it deterministically expands to: claims about the parameters are
stated relative to an arbitrary expansion result (the seeded RNG stream
itself is not modelled). -/
structure BaseParams where
  dim : Nat
  m : Nat
  elem_size : Nat
  plaintext_bits : Nat
  rhs : List (List Nat)
  deriving Repr, DecidableEq

/-- `BaseParams::generate_params_rhs`: with `lhsMatrix` the seed expansion
`generate_lwe_matrix_from_seed(public_seed, dim, m)` (an `m × dim` matrix,
supplied here directly), transpose it and push `db.vec_mult(r, i)` for each
of its rows `r`, for every column `i` of the DB matrix.  `none` models the
abort inside `Database::vec_mult`. -/
def BaseParams.generate_params_rhs (db : Database) (lhsMatrix : List (List Nat)) :
    Option (List (List Nat)) :=
  let lhs := swap_matrix_fmt lhsMatrix
  listMapO (fun i => listMapO (fun r => db.vec_mult r i) lhs)
    (List.range db.get_matrix_width_self)

/-- `BaseParams::mult_right`: `vec_mult_u32_u32(s, &cols[i])` for each stored
column of `rhs`, collected as a `Result`. -/
def BaseParams.mult_right (bp : BaseParams) (s : List Nat) : Except PIRErr (List Nat) :=
  listMapE (fun col => vec_mult_u32_u32 s col) bp.rhs

/-! ## `src/src/api.rs` -/

/-- `Query` (`src/src/api.rs`): the client query vector. -/
structure Query where
  vec : List Nat
  deriving Repr, DecidableEq

/-- `QueryParams` (`src/src/api.rs`). -/
structure QueryParams where
  lhs : List Nat
  rhs : List Nat
  ele_size : Nat
  plaintext_bits : Nat
  used : Bool
  deriving Repr, DecidableEq

/-- `QueryParams::prepare_query` exactly as in `src/src/api.rs`: set
`used := true`, clone `lhs`, add the rounding factor into `lhs[row_index]`
(`+=` wraps mod `2^32` in release builds), and return the `Query` together
with the mutated receiver.  No error path exists in this source. -/
def QueryParams.prepare_query (qp : QueryParams) (row_index : Nat) :
    QueryParams × Query :=
  let query_indicator := get_rounding_factor qp.plaintext_bits
  ({ qp with used := true },
   ⟨qp.lhs.set row_index (wadd (qp.lhs.getD row_index 0) query_indicator)⟩)

/-- `Shard` (`src/src/api.rs`). -/
structure Shard where
  db : Database
  base_params : BaseParams
  deriving Repr, DecidableEq

/-- `Shard::respond`: `db.vec_mult(q, i)` for every `i` below the matrix
width.  `none` models the abort inside `Database::vec_mult` (the only other
failure of the source, bincode serialization of the resulting `Vec<u32>`, is
not modelled: the response is returned unserialized). -/
def Shard.respond (s : Shard) (q : Query) : Option (List Nat) :=
  listMapO (fun i => s.db.vec_mult q.vec i) (List.range s.db.get_matrix_width_self)

/-- `Response::parse_output_as_row` (`src/src/api.rs`): subtract `qp.rhs`
with wrapping arithmetic, divide by the rounding factor, round up when the
remainder exceeds the rounding floor, reduce modulo the plaintext size. -/
def parse_output_as_row (resp : List Nat) (qp : QueryParams) : List Nat :=
  let rounding_factor := get_rounding_factor qp.plaintext_bits
  let rounding_floor := get_rounding_floor qp.plaintext_bits
  let plaintext_size := get_plaintext_size qp.plaintext_bits
  (List.range (Database.get_matrix_width qp.ele_size qp.plaintext_bits)).map fun i =>
    let unscaled_res := wsub (resp.getD i 0) (qp.rhs.getD i 0)
    let scaled_res := unscaled_res / rounding_factor
    let scaled_rem := unscaled_res % rounding_factor
    let rounded_res := if scaled_rem > rounding_floor then scaled_res + 1 else scaled_res
    rounded_res % plaintext_size

/-! ## SHA-256 (the `sha2` crate as used by `src/infra/rust/api`)

Executable FIPS 180-4 SHA-256 over byte lists, with `u32` words as `Nat`
reduced mod `2 ^ 32`. -/

/-- 32-bit right rotation (operand below `2 ^ 32`). -/
def rotRight32 (x n : Nat) : Nat := ((x >>> n) ||| (x <<< (32 - n))) % Q

/-- 32-bit bitwise complement. -/
def bnot32 (x : Nat) : Nat := x ^^^ (Q - 1)

/-- SHA-256 `Ch`. -/
def sha_ch (x y z : Nat) : Nat := (x &&& y) ^^^ (bnot32 x &&& z)

/-- SHA-256 `Maj`. -/
def sha_maj (x y z : Nat) : Nat := (x &&& y) ^^^ (x &&& z) ^^^ (y &&& z)

/-- SHA-256 `Σ0`. -/
def sumA256 (x : Nat) : Nat := rotRight32 x 2 ^^^ rotRight32 x 13 ^^^ rotRight32 x 22

/-- SHA-256 `Σ1`. -/
def sumE256 (x : Nat) : Nat := rotRight32 x 6 ^^^ rotRight32 x 11 ^^^ rotRight32 x 25

/-- SHA-256 `σ0`. -/
def sigLow256 (x : Nat) : Nat := rotRight32 x 7 ^^^ rotRight32 x 18 ^^^ (x >>> 3)

/-- SHA-256 `σ1`. -/
def sigHigh256 (x : Nat) : Nat := rotRight32 x 17 ^^^ rotRight32 x 19 ^^^ (x >>> 10)

/-- The 64 SHA-256 round constants (decimal). -/
def sha_K : List Nat :=
  [1116352408, 1899447441, 3049323471, 3921009573, 961987163,
   1508970993, 2453635748, 2870763221, 3624381080, 310598401,
   607225278, 1426881987, 1925078388, 2162078206, 2614888103,
   3248222580, 3835390401, 4022224774, 264347078, 604807628,
   770255983, 1249150122, 1555081692, 1996064986, 2554220882,
   2821834349, 2952996808, 3210313671, 3336571891, 3584528711,
   113926993, 338241895, 666307205, 773529912, 1294757372,
   1396182291, 1695183700, 1986661051, 2177026350, 2456956037,
   2730485921, 2820302411, 3259730800, 3345764771, 3516065817,
   3600352804, 4094571909, 275423344, 430227734, 506948616,
   659060556, 883997877, 958139571, 1322822218, 1537002063,
   1747873779, 1955562222, 2024104815, 2227730452, 2361852424,
   2428436474, 2756734187, 3204031479, 3329325298]

/-- The SHA-256 initial hash value (decimal). -/
def sha_H0 : List Nat :=
  [1779033703, 3144134277, 1013904242, 2773480762,
   1359893119, 2600822924, 528734635, 1541459225]

/-- SHA-256 padding: append `0x80`, zero bytes to 56 mod 64, then the
64-bit big-endian bit length. -/
def sha256_pad (msg : List Nat) : List Nat :=
  let L := msg.length
  let z := (56 + 64 - (L + 1) % 64) % 64
  let bl := 8 * L
  msg ++ [0x80] ++ List.replicate z 0 ++
    [bl / 2 ^ 56 % 256, bl / 2 ^ 48 % 256, bl / 2 ^ 40 % 256, bl / 2 ^ 32 % 256,
     bl / 2 ^ 24 % 256, bl / 2 ^ 16 % 256, bl / 2 ^ 8 % 256, bl % 256]

/-- Split a byte list into 64-byte blocks (structural recursion on a fuel
argument so the definition reduces; each step consumes at least one element,
so `l.length` fuel always suffices). -/
def toBlocksFuel : Nat → List Nat → List (List Nat)
  | 0, _ => []
  | _, [] => []
  | fuel + 1, a :: rest =>
    ((a :: rest).take 64) :: toBlocksFuel fuel ((a :: rest).drop 64)

/-- Split a byte list into 64-byte blocks. -/
def toBlocks (l : List Nat) : List (List Nat) :=
  toBlocksFuel l.length l

/-- Read a 64-byte block as 16 big-endian 32-bit words. -/
def block_words : List Nat → List Nat
  | b0 :: b1 :: b2 :: b3 :: rest =>
    (((b0 * 256 + b1) * 256 + b2) * 256 + b3) :: block_words rest
  | _ => []

/-- One extension step of the SHA-256 message schedule. -/
def sched_step (w : List Nat) : List Nat :=
  let t := w.length
  w ++ [(sigHigh256 (w.getD (t - 2) 0) + w.getD (t - 7) 0 +
         sigLow256 (w.getD (t - 15) 0) + w.getD (t - 16) 0) % Q]

/-- Iterate the schedule extension. -/
def sched_ext (w : List Nat) : Nat → List Nat
  | 0 => w
  | n + 1 => sched_ext (sched_step w) n

/-- The 64-word SHA-256 message schedule of a block. -/
def message_schedule (block : List Nat) : List Nat :=
  sched_ext (block_words block) 48

/-- The eight SHA-256 working variables. -/
structure H8 where
  a : Nat
  b : Nat
  c : Nat
  d : Nat
  e : Nat
  f : Nat
  g : Nat
  h : Nat

/-- One SHA-256 compression round; `kw` is the pair of round constant and
schedule word. -/
def compress_round (s : H8) (kw : Nat × Nat) : H8 :=
  let t1 := (s.h + sumE256 s.e + sha_ch s.e s.f s.g + kw.1 + kw.2) % Q
  let t2 := (sumA256 s.a + sha_maj s.a s.b s.c) % Q
  ⟨(t1 + t2) % Q, s.a, s.b, s.c, (s.d + t1) % Q, s.e, s.f, s.g⟩

/-- SHA-256 compression of one 64-byte block into the running hash (a list
of eight words). -/
def compress_block (H : List Nat) (block : List Nat) : List Nat :=
  let w := message_schedule block
  let s0 : H8 := ⟨H.getD 0 0, H.getD 1 0, H.getD 2 0, H.getD 3 0,
                  H.getD 4 0, H.getD 5 0, H.getD 6 0, H.getD 7 0⟩
  let s := (sha_K.zip w).foldl compress_round s0
  [(H.getD 0 0 + s.a) % Q, (H.getD 1 0 + s.b) % Q, (H.getD 2 0 + s.c) % Q,
   (H.getD 3 0 + s.d) % Q, (H.getD 4 0 + s.e) % Q, (H.getD 5 0 + s.f) % Q,
   (H.getD 6 0 + s.g) % Q, (H.getD 7 0 + s.h) % Q]

/-- SHA-256 of a byte list, as the 32-byte big-endian digest. -/
def sha256 (msg : List Nat) : List Nat :=
  let Hf := (toBlocks (sha256_pad msg)).foldl compress_block sha_H0
  (Hf.map fun x => [x / 2 ^ 24 % 256, x / 2 ^ 16 % 256, x / 2 ^ 8 % 256, x % 256]).flatten

/-! ## `src/infra/rust/api/src/utils.rs` and `keyword.rs` -/

/-- `utils::get_prefix`: read the first four bytes as a little-endian `u32`
and, when `prefix_bit_len < 32`, reduce modulo `2 ^ prefix_bit_len`.  (The
source aborts on fewer than four bytes; every modelled call site passes at
least four.) -/
def get_prefix_val (bytes : List Nat) (prefix_bit_len : Nat) : Nat :=
  let val := bytes.getD 0 0 + bytes.getD 1 0 * 2 ^ 8 +
    bytes.getD 2 0 * 2 ^ 16 + bytes.getD 3 0 * 2 ^ 24
  if prefix_bit_len < 32 then val % 2 ^ prefix_bit_len else val

/-- `keyword::LocalHashPrefixTable`. -/
structure LocalHashPrefixTable where
  prefixes : List Nat
  prefix_bit_len : Nat
  deriving Repr, DecidableEq

/-- `LocalHashPrefixTable::new`: for each row yielded by the bucket's
`into_row_iter`, base64-decode it and store its `get_prefix`.  The iterator
yields each stored record re-encoded in base64, so decoding returns the
record's bytes; `rows` here is that list of record byte strings directly
(base64 encode/decode round-trips, and the 4 bytes the prefix reads are
preserved exactly by the DB limb codec for the reference parameters). -/
def LocalHashPrefixTable.build (rows : List (List Nat)) (prefix_bit_len : Nat) :
    LocalHashPrefixTable :=
  { prefixes := rows.map fun bytes => get_prefix_val bytes prefix_bit_len
    prefix_bit_len := prefix_bit_len }

/-- `LocalHashPrefixTable::get_indices`: hash the keyword with SHA-256,
compute `get_prefix(&hash[..4], prefix_bit_len)`, and return every index
whose stored prefix equals it (the source pushes matching indices of its
`enumerate` loop; the filter below returns the same index list). -/
def LocalHashPrefixTable.get_indices (t : LocalHashPrefixTable) (keyword : List Nat) :
    List Nat :=
  let hash := sha256 keyword
  (List.range t.prefixes.length).filter fun i =>
    t.prefixes.getD i 0 == get_prefix_val (hash.take 4) t.prefix_bit_len

/-! ## `src/infra/rust/api/src/api.rs` -/

/-- `ClientState` (`infra/rust/api/src/api.rs`); the voprf client state is
absorbed into the abstract `oprf_finalize` parameter below. -/
structure ClientState where
  pir_state : List QueryParams
  oprf_input : List Nat

/-- `ServerResponse` (`infra/rust/api/src/api.rs`). -/
structure ServerResponse where
  pir_resp : List (List Nat)
  oprf_resp : List Nat

/-- `client_process_output` (`infra/rust/api/src/api.rs`), parameterized by
the operations the source pulls from other crates: bincode deserialization
of the OPRF evaluation (`deserialize_eval`) and of each PIR response
(`deserialize_resp`), voprf finalization (`oprf_finalize`), and the
published frodo-pir crate's `Response::parse_output_as_bytes` (not present
in this checkout).  Deserialization failures become `SerdeError`,
finalization failure becomes the OPRF error, and the result is `true` iff
some decoded row equals the finalized OPRF bytes. -/
def client_process_output {E R : Type}
    (deserialize_eval : List Nat → Option E)
    (oprf_finalize : List Nat → E → Option (List Nat))
    (deserialize_resp : List Nat → Option R)
    (parse_output_as_bytes : R → QueryParams → List Nat)
    (sr : ServerResponse) (cs : ClientState) : Except PIRErr Bool :=
  match deserialize_eval sr.oprf_resp with
  | none => .error .serde
  | some ev =>
    match oprf_finalize cs.oprf_input ev with
    | none => .error .oprf
    | some oprf_final =>
      match listMapO (fun i =>
          match deserialize_resp (sr.pir_resp.getD i []) with
          | none => none
          | some pr => some (parse_output_as_bytes pr (cs.pir_state.getD i ⟨[], [], 0, 0, false⟩)))
          (List.range sr.pir_resp.length) with
      | none => .error .serde
      | some pir_outputs => .ok (pir_outputs.any fun o => o == oprf_final)

/-! ## Helper lemmas -/

theorem Q_pos : 0 < Q := by decide

theorem getD_map_range {α : Type} (f : Nat → α) (d : α) {i n : Nat} (h : i < n) :
    ((List.range n).map f).getD i d = f i := by
  rw [List.getD_eq_getElem ((List.range n).map f) d (by simpa using h)]
  simp

theorem getD_map_lt {α β : Type} (f : α → β) (l : List α) (d : α) (d2 : β) {i : Nat}
    (h : i < l.length) :
    (l.map f).getD i d2 = f (l.getD i d) := by
  rw [List.getD_eq_getElem (l.map f) d2 (by simpa using h),
    List.getD_eq_getElem l d h]
  simp

theorem getD_mem_of_lt {α : Type} (l : List α) (d : α) {i : Nat} (h : i < l.length) :
    l.getD i d ∈ l := by
  rw [List.getD_eq_getElem l d h]
  exact List.getElem_mem h

theorem listMapO_eq_some_map {α β : Type} (f : α → Option β) (g : α → β) :
    ∀ l : List α, (∀ a ∈ l, f a = some (g a)) → listMapO f l = some (l.map g)
  | [], _ => rfl
  | a :: l, h => by
    have ha : f a = some (g a) := h a (List.mem_cons_self a l)
    have hl : listMapO f l = some (l.map g) :=
      listMapO_eq_some_map f g l fun x hx => h x (List.mem_cons_of_mem a hx)
    simp [listMapO, ha, hl]

theorem listMapE_eq_ok_map {α β : Type} (f : α → Except PIRErr β) (g : α → β) :
    ∀ l : List α, (∀ a ∈ l, f a = .ok (g a)) → listMapE f l = .ok (l.map g)
  | [], _ => rfl
  | a :: l, h => by
    have ha : f a = .ok (g a) := h a (List.mem_cons_self a l)
    have hl : listMapE f l = .ok (l.map g) :=
      listMapE_eq_ok_map f g l fun x hx => h x (List.mem_cons_of_mem a hx)
    simp [listMapE, ha, hl]

theorem foldl_wadd_wmul (l : List (Nat × Nat)) :
    ∀ a : Nat, l.foldl (fun acc rc => wadd acc (wmul rc.1 rc.2)) (a % Q) =
      (a + (l.map fun rc => rc.1 * rc.2).sum) % Q := by
  induction l with
  | nil => intro a; simp
  | cons x l ih =>
    intro a
    have hstep : wadd (a % Q) (wmul x.1 x.2) = (a + x.1 * x.2) % Q := by
      simp [wadd, wmul, Nat.add_mod]
    simp only [List.foldl_cons, hstep, ih (a + x.1 * x.2), List.map_cons, List.sum_cons]
    rw [Nat.add_assoc]

theorem vec_mult_ok {row col : List Nat} (h : row.length = col.length) :
    vec_mult_u32_u32 row col = .ok (((row.zip col).map fun rc => rc.1 * rc.2).sum % Q) := by
  have h0 : (0 : Nat) = 0 % Q := by decide
  simp only [vec_mult_u32_u32, h, ne_eq, not_true_eq_false, if_false]
  rw [h0, foldl_wadd_wmul ((row.zip col)) 0]
  simp

theorem zip_map_sum_eq_range :
    ∀ (l1 l2 : List Nat), l1.length = l2.length →
      ((l1.zip l2).map fun rc => rc.1 * rc.2).sum =
        ((List.range l1.length).map fun j => l1.getD j 0 * l2.getD j 0).sum
  | [], [], _ => rfl
  | [], _ :: _, h => by simp at h
  | _ :: _, [], h => by simp at h
  | x :: l1, y :: l2, h => by
    have hlen : l1.length = l2.length := by simpa using h
    have ih := zip_map_sum_eq_range l1 l2 hlen
    simp only [List.zip_cons_cons, List.map_cons, List.sum_cons, List.length_cons,
      List.range_succ_eq_map, List.map_map]
    rw [ih]
    congr 1

theorem vec_mult_ok_range {row col : List Nat} (h : row.length = col.length) :
    vec_mult_u32_u32 row col =
      .ok (((List.range row.length).map fun j => row.getD j 0 * col.getD j 0).sum % Q) := by
  rw [vec_mult_ok h, zip_map_sum_eq_range row col h]

theorem get_plaintext_size_eq {p : Nat} (h : p < 32) : get_plaintext_size p = 2 ^ p := by
  unfold get_plaintext_size Q
  exact Nat.mod_eq_of_lt (Nat.pow_lt_pow_right one_lt_two h)

theorem get_rounding_factor_eq {p : Nat} (h0 : 0 < p) (h : p < 32) :
    get_rounding_factor p = 2 ^ 32 / 2 ^ p := by
  unfold get_rounding_factor
  rw [get_plaintext_size_eq h]
  show 2 ^ 32 / 2 ^ p % Q = 2 ^ 32 / 2 ^ p
  rw [Nat.pow_div (le_of_lt h) (by norm_num)]
  exact Nat.mod_eq_of_lt (Nat.pow_lt_pow_right one_lt_two (by omega))

theorem get_prefix_val_take4 (l : List Nat) (b : Nat) :
    get_prefix_val (l.take 4) b = get_prefix_val l b := by
  match l with
  | [] => rfl
  | [_] => rfl
  | [_, _] => rfl
  | [_, _, _] => rfl
  | _ :: _ :: _ :: _ :: _ => rfl

/-- Validation of the executable SHA-256 against the FIPS 180-4 test vector
for the message `"abc"`. -/
theorem sha256_matches_fips_vector :
    sha256 [97, 98, 99] =
      [0xba, 0x78, 0x16, 0xbf, 0x8f, 0x01, 0xcf, 0xea, 0x41, 0x41, 0x40, 0xde,
       0x5d, 0xae, 0x22, 0x23, 0xb0, 0x03, 0x61, 0xa3, 0x96, 0x17, 0x7a, 0x9c,
       0xb4, 0x10, 0xff, 0x61, 0xf2, 0x00, 0x15, 0xad] := by decide

/-! ## Claim theorems -/

/-- C1.  The claim states that a second `prepare_query` call on the same
`QueryParams` fails with `QueryParamsReused` and that no `Query` is returned
once `used` is true.  The source `src/src/api.rs` never reads the `used`
flag: after a first call has set `used := true`, a second call still
succeeds and returns the same `Query` (here `[2^31]`, for a fresh parameter
set with `lhs = [0]` and one plaintext bit).  Only the `used == true`
postcondition of the claim holds. -/
theorem prepare_query_ignores_used_flag :
    ((QueryParams.mk [0] [0] 8 1 false).prepare_query 0).1.used = true ∧
    (((QueryParams.mk [0] [0] 8 1 false).prepare_query 0).1.prepare_query 0).2 =
      ⟨[2 ^ 31]⟩ := by
  constructor
  · rfl
  · decide

/-- C2.  The claim states that `prepare_query` fails with `OverflowAdd`
whenever `lhs[row_index] + Δ ≥ 2^32` and never silently wraps.  In
`src/src/api.rs` the indicator is added with a plain `+=`: at
`lhs = [2^31 + 1]` and `plaintext_bits = 1` (so `Δ = 2^31`) the sum is
`2^32 + 1`, the overflow condition of the claim holds, and the returned
query holds the wrapped value `1` — no error is raised (the function has no
error path at all; a debug build would abort instead). -/
theorem prepare_query_wraps_on_overflow :
    2 ^ 32 ≤ 2 ^ 31 + 1 + get_rounding_factor 1 ∧
    ((QueryParams.mk [2 ^ 31 + 1] [] 8 1 false).prepare_query 0).2 = ⟨[1]⟩ := by
  constructor
  · decide
  · decide

/-- C4.  The claim states that when `total_bits` is an exact multiple of
`entry_bits`, the last limb still emits `entry_bits` bits.  The source
(`bytes_from_u32_slice` in `src/src/utils.rs`) emits
`total_bit_len % entry_bit_len` bits from the last limb, which is zero at an
exact multiple: on `v = [1, 1]`, `entry_bits = 8`, `total_bits = 16` it
produces the single byte `[1]`, dropping the last limb entirely, instead of
the `[1, 1]` the claim requires. -/
theorem bytes_from_u32_slice_drops_last_limb :
    bytes_from_u32_slice [1, 1] 8 16 = [1] ∧
    bytes_from_u32_slice [1, 1] 8 16 ≠ [1, 1] := by
  constructor
  · decide
  · decide

/-- C9.  The claim states that `Shard::respond` returns a
`DimensionMismatch` error value on a query of the wrong length and does not
abort.  In the source, `Database::vec_mult` (`src/src/db.rs`) calls
`.unwrap()` on the fallible inner product, so a length mismatch aborts the
process (`none` below); `respond`'s declared error type `PIRError` has no
dimension-mismatch variant at all.  Evaluated on a shard with two rows
(columns of length 2) and a query of length 3. -/
theorem respond_panics_on_dimension_mismatch :
    Shard.respond ⟨⟨[[5, 6], [7, 8]], 2, 20, 10⟩, ⟨4, 2, 20, 10, []⟩⟩ ⟨[1, 2, 3]⟩ =
      none := by decide

/-- C10.  `prepare_query` changes only the `used` field: `lhs`, `rhs`,
`ele_size` and `plaintext_bits` are untouched (the returned query is built
from a copy of `lhs`), so a second call with the same row index returns an
equal `Query`. -/
theorem prepare_query_frame (qp : QueryParams) (row_index : Nat) :
    (qp.prepare_query row_index).1.lhs = qp.lhs ∧
    (qp.prepare_query row_index).1.rhs = qp.rhs ∧
    (qp.prepare_query row_index).1.ele_size = qp.ele_size ∧
    (qp.prepare_query row_index).1.plaintext_bits = qp.plaintext_bits ∧
    (qp.prepare_query row_index).1.used = true ∧
    ((qp.prepare_query row_index).1.prepare_query row_index).2 =
      (qp.prepare_query row_index).2 :=
  ⟨rfl, rfl, rfl, rfl, rfl, rfl⟩

/-- C8.  `vec_mult_u32_u32` fails (with `ErrorUnexpectedInputSize`, the
spec's `DimensionMismatch`) exactly when the lengths differ, and otherwise
returns the inner product reduced modulo `2^32` (wrapping multiplies and
adds). -/
theorem vec_mult_u32_u32_spec (row col : List Nat) :
    (vec_mult_u32_u32 row col = .error .unexpectedInputSize ↔
      row.length ≠ col.length) ∧
    (row.length = col.length →
      vec_mult_u32_u32 row col =
        .ok (((List.range row.length).map fun j => row.getD j 0 * col.getD j 0).sum % Q)) := by
  constructor
  · constructor
    · intro h
      by_contra hlen
      rw [vec_mult_ok hlen] at h
      exact Except.noConfusion h
    · intro hlen
      simp [vec_mult_u32_u32, hlen]
  · intro hlen
    exact vec_mult_ok_range hlen

/-- Witness for C8 at the spec's concrete inputs: `[1,2,3]` against
`[10,20,30,40]` fails with the length-mismatch error, and against
`[10,20,30]` returns `10 + 40 + 90 = 140`. -/
theorem vec_mult_u32_u32_spec_witness :
    vec_mult_u32_u32 [1, 2, 3] [10, 20, 30, 40] = .error .unexpectedInputSize ∧
    vec_mult_u32_u32 [1, 2, 3] [10, 20, 30] = .ok 140 := by
  constructor
  · exact (vec_mult_u32_u32_spec [1, 2, 3] [10, 20, 30, 40]).1.mpr (by decide)
  · exact ((vec_mult_u32_u32_spec [1, 2, 3] [10, 20, 30]).2 (by decide)).trans
      (congrArg Except.ok (by decide))

/-- C6.  For every response and query-parameter pair (with the parameters in
the modelled range `0 < plaintext_bits < 32` and the vectors long enough for
the source's indexing), entry `i` of `parse_output_as_row` is
`((u / Δ) + c) mod 2^plaintext_bits` where `u` is the wrapping difference
`resp[i] −w qp.rhs[i]`, `Δ = floor(2^32 / 2^plaintext_bits)`, and `c = 1`
exactly when `u mod Δ > Δ / 2`. -/
theorem parse_output_as_row_spec (resp : List Nat) (qp : QueryParams)
    (hp0 : 0 < qp.plaintext_bits) (hp31 : qp.plaintext_bits < 32)
    {i : Nat} (hi : i < Database.get_matrix_width qp.ele_size qp.plaintext_bits)
    (_hr : Database.get_matrix_width qp.ele_size qp.plaintext_bits ≤ resp.length)
    (_hq : Database.get_matrix_width qp.ele_size qp.plaintext_bits ≤ qp.rhs.length) :
    (parse_output_as_row resp qp).getD i 0 =
      (wsub (resp.getD i 0) (qp.rhs.getD i 0) / (2 ^ 32 / 2 ^ qp.plaintext_bits) +
        if (2 ^ 32 / 2 ^ qp.plaintext_bits) / 2 <
            wsub (resp.getD i 0) (qp.rhs.getD i 0) % (2 ^ 32 / 2 ^ qp.plaintext_bits)
          then 1 else 0) % 2 ^ qp.plaintext_bits := by
  have hrf := get_rounding_factor_eq hp0 hp31
  have hps := get_plaintext_size_eq hp31
  unfold parse_output_as_row get_rounding_floor
  simp only [hrf, hps]
  rw [getD_map_range _ _ hi]
  split <;> simp

/-- Witness for C6 at `resp = [5]`, `rhs = [1]`, ten plaintext bits and a
ten-bit element (matrix width 1): the decoded entry is
`(4 / 2^22 + 0) mod 2^10 = 0`. -/
theorem parse_output_as_row_spec_witness :
    (parse_output_as_row [5] ⟨[], [1], 10, 10, false⟩).getD 0 0 =
      (wsub 5 1 / (2 ^ 32 / 2 ^ 10) +
        if (2 ^ 32 / 2 ^ 10) / 2 < wsub 5 1 % (2 ^ 32 / 2 ^ 10) then 1 else 0) % 2 ^ 10 :=
  parse_output_as_row_spec [5] ⟨[], [1], 10, 10, false⟩ (by decide) (by decide)
    (by decide) (by decide) (by decide)

/-- C3, counterexample.  The claim states the table entry for a row is the
prefix of `SHA256(row)` and that every record is in `get_indices` of itself.
The source (`keyword.rs`) builds each entry from the decoded row bytes
directly — no hash — while `get_indices` hashes its keyword; so for the
single-record shard holding `r = SHA256("a")` (a realistic leak-hash
record), looking up the record itself misses: the stored prefix is
`r` mod `2^16 = 38858`, the lookup prefix is `SHA256(r)` mod
`2^16 = 23999`, and `get_indices` returns no index at all. -/
theorem keyword_table_claim_counterexample :
    (LocalHashPrefixTable.build [sha256 [97]] 16).get_indices (sha256 [97]) = [] := by
  decide

/-- C3, amended.  The table entry for row `i` is the low `b` bits of the
little-endian `u32` read from the first 4 bytes of the decoded row itself
(rows are already hashes), and a record at index `i` is retrievable by any
keyword it is the SHA-256 image of: if `rows[i] = SHA256(kw)` then
`i ∈ get_indices(kw)`. -/
theorem keyword_table_soundness_amended (rows : List (List Nat)) (b : Nat)
    (i : Nat) (kw : List Nat) (hi : i < rows.length)
    (hrec : rows.getD i [] = sha256 kw) :
    i ∈ (LocalHashPrefixTable.build rows b).get_indices kw := by
  unfold LocalHashPrefixTable.get_indices LocalHashPrefixTable.build
  apply List.mem_filter.mpr
  constructor
  · exact List.mem_range.mpr (by simpa using hi)
  · have h1 : ((rows.map fun bytes => get_prefix_val bytes b).getD i 0) =
        get_prefix_val (rows.getD i []) b := getD_map_lt _ rows [] 0 hi
    simp only [h1, hrec, get_prefix_val_take4]
    exact beq_self_eq_true _

/-- Witness for the amended C3: the shard storing the single record
`SHA256("a")` finds index 0 when queried with the keyword `"a"`. -/
theorem keyword_table_soundness_witness :
    0 ∈ (LocalHashPrefixTable.build [sha256 [97]] 16).get_indices [97] :=
  keyword_table_soundness_amended [sha256 [97]] 16 0 [97] (by decide) rfl

/-- C7.  Whenever the OPRF evaluation deserializes, finalization succeeds,
and every PIR response deserializes (to `g i`), `client_process_output`
returns `Ok b` with `b = true` exactly when some PIR-retrieved row — the
bytes of `parse_output_as_bytes` on the `i`-th deserialized response and the
`i`-th stored query parameters — equals the OPRF-finalized bytes. -/
theorem client_process_output_match_iff {E R : Type}
    (deserialize_eval : List Nat → Option E)
    (oprf_finalize : List Nat → E → Option (List Nat))
    (deserialize_resp : List Nat → Option R)
    (parse_output_as_bytes : R → QueryParams → List Nat)
    (sr : ServerResponse) (cs : ClientState)
    (ev : E) (oprf_final : List Nat) (g : Nat → R)
    (he : deserialize_eval sr.oprf_resp = some ev)
    (hf : oprf_finalize cs.oprf_input ev = some oprf_final)
    (hd : ∀ i < sr.pir_resp.length,
      deserialize_resp (sr.pir_resp.getD i []) = some (g i)) :
    ∃ b, client_process_output deserialize_eval oprf_finalize deserialize_resp
        parse_output_as_bytes sr cs = .ok b ∧
      (b = true ↔ ∃ i < sr.pir_resp.length,
        parse_output_as_bytes (g i) (cs.pir_state.getD i ⟨[], [], 0, 0, false⟩) =
          oprf_final) := by
  have hmap := listMapO_eq_some_map
    (fun i => match deserialize_resp (sr.pir_resp.getD i []) with
      | none => none
      | some pr => some (parse_output_as_bytes pr (cs.pir_state.getD i ⟨[], [], 0, 0, false⟩)))
    (fun i => parse_output_as_bytes (g i) (cs.pir_state.getD i ⟨[], [], 0, 0, false⟩))
    (List.range sr.pir_resp.length)
    (fun i himem => by simp only [hd i (List.mem_range.mp himem)])
  have hb : client_process_output deserialize_eval oprf_finalize deserialize_resp
      parse_output_as_bytes sr cs =
      .ok (((List.range sr.pir_resp.length).map fun i =>
        parse_output_as_bytes (g i)
          (cs.pir_state.getD i ⟨[], [], 0, 0, false⟩)).any fun o => o == oprf_final) := by
    unfold client_process_output
    simp only [he, hf, hmap]
  refine ⟨_, hb, ?_⟩
  simp only [List.any_eq_true, List.mem_map, List.mem_range, beq_iff_eq]
  constructor
  · rintro ⟨o, ⟨i, hilt, rfl⟩, rfl⟩
    exact ⟨i, hilt, rfl⟩
  · rintro ⟨i, hilt, hoeq⟩
    exact ⟨_, ⟨i, hilt, rfl⟩, hoeq⟩

/-- Witness for C7 with identity deserializers, a finalizer returning the
evaluation bytes, and `parse_output_as_bytes` returning the response bytes:
a single PIR response `[1, 2]` against OPRF bytes `[1, 2]` matches. -/
theorem client_process_output_match_iff_witness :
    ∃ b, client_process_output (fun l => some l) (fun _ e => some e)
        (fun l => some l) (fun r _ => r)
        ⟨[[1, 2]], [1, 2]⟩ ⟨[⟨[], [], 0, 0, false⟩], [9]⟩ = .ok b ∧
      (b = true ↔ ∃ i < ([[1, 2]] : List (List Nat)).length,
        ([[1, 2]] : List (List Nat)).getD i [] =
          ([1, 2] : List Nat)) :=
  client_process_output_match_iff (fun l => some l) (fun _ e => some e)
    (fun l => some l) (fun r _ => r)
    ⟨[[1, 2]], [1, 2]⟩ ⟨[⟨[], [], 0, 0, false⟩], [9]⟩
    [1, 2] [1, 2] (fun i => ([[1, 2]] : List (List Nat)).getD i [])
    rfl rfl (fun _ _ => rfl)

/-- C5.  For a shard whose database matrix has `m`-entry columns, an
expanded LWE matrix `A` with `m` rows (`A = Expand(lhs_seed)` of the
source, supplied directly), and a client secret `s` of the LWE dimension:
`generate_params_rhs` succeeds, `mult_right s` succeeds, and its `i`-th
output — for every column index `i` below the matrix width — is the
wrapping inner product of `s` with the `i`-th precomputed column of `A·DB`,
i.e. `Σ_k s[k] * rhs[i][k] mod 2^32` with
`rhs[i][k] = Σ_j A[j][k] * DB[j][i] mod 2^32`. -/
theorem mult_right_rhs_consistency
    (db : Database) (A : List (List Nat)) (s : List Nat) (i : Nat)
    (hm : 0 < db.m)
    (hA : A.length = db.m)
    (hAr : ∀ r ∈ A, r.length = s.length)
    (hE : db.entries.length = db.get_matrix_width_self)
    (hEc : ∀ c ∈ db.entries, c.length = db.m)
    (hi : i < db.get_matrix_width_self) :
    ∃ rhs out,
      BaseParams.generate_params_rhs db A = some rhs ∧
      BaseParams.mult_right ⟨s.length, db.m, db.elem_size, db.plaintext_bits, rhs⟩ s =
        .ok out ∧
      out.getD i 0 =
        ((List.range s.length).map fun k =>
          s.getD k 0 *
            (((List.range db.m).map fun j =>
              (A.getD j []).getD k 0 * (db.entries.getD i []).getD j 0).sum % Q)).sum % Q := by
  have hAne : A ≠ [] := by
    intro hnil
    rw [hnil] at hA
    simp at hA
    omega
  have hhead : (A.headD []).length = s.length := by
    cases A with
    | nil => exact absurd rfl hAne
    | cons a t => exact hAr a (List.mem_cons_self a t)
  have hswap : swap_matrix_fmt A =
      (List.range s.length).map fun k => A.map fun r => r.getD k 0 := by
    unfold swap_matrix_fmt
    rw [hhead]
  have hEi : ∀ i', i' < db.get_matrix_width_self → i' < db.entries.length := by
    intro i' h
    rw [hE]
    exact h
  have hcol : ∀ i', i' < db.get_matrix_width_self →
      (db.entries.getD i' []).length = db.m :=
    fun i' h => hEc _ (getD_mem_of_lt db.entries [] (hEi i' h))
  have hrowlen : ∀ row ∈ swap_matrix_fmt A, row.length = db.m := by
    intro row hrow
    rw [hswap] at hrow
    obtain ⟨k, _, rfl⟩ := List.mem_map.mp hrow
    simp [hA]
  have hinner : ∀ i' ∈ List.range db.get_matrix_width_self,
      listMapO (fun r => db.vec_mult r i') (swap_matrix_fmt A) =
        some ((swap_matrix_fmt A).map fun row =>
          ((List.range db.m).map fun j =>
            row.getD j 0 * (db.entries.getD i' []).getD j 0).sum % Q) := by
    intro i' hi'
    have hi'w := List.mem_range.mp hi'
    apply listMapO_eq_some_map
    intro row hrow
    have hrl : row.length = db.m := hrowlen row hrow
    unfold Database.vec_mult
    rw [if_pos (hEi i' hi'w)]
    rw [vec_mult_ok_range (by rw [hrl, hcol i' hi'w])]
    rw [hrl]
    rfl
  have houter : BaseParams.generate_params_rhs db A =
      some ((List.range db.get_matrix_width_self).map fun i' =>
        (swap_matrix_fmt A).map fun row =>
          ((List.range db.m).map fun j =>
            row.getD j 0 * (db.entries.getD i' []).getD j 0).sum % Q) := by
    unfold BaseParams.generate_params_rhs
    exact listMapO_eq_some_map _ _ _ hinner
  have hlhslen : (swap_matrix_fmt A).length = s.length := by
    rw [hswap]
    simp
  have hmr : BaseParams.mult_right
      ⟨s.length, db.m, db.elem_size, db.plaintext_bits,
        (List.range db.get_matrix_width_self).map fun i' =>
          (swap_matrix_fmt A).map fun row =>
            ((List.range db.m).map fun j =>
              row.getD j 0 * (db.entries.getD i' []).getD j 0).sum % Q⟩ s =
      .ok (((List.range db.get_matrix_width_self).map fun i' =>
        (swap_matrix_fmt A).map fun row =>
          ((List.range db.m).map fun j =>
            row.getD j 0 * (db.entries.getD i' []).getD j 0).sum % Q).map fun col' =>
        ((List.range s.length).map fun k => s.getD k 0 * col'.getD k 0).sum % Q) := by
    unfold BaseParams.mult_right
    apply listMapE_eq_ok_map
    intro col' hcol'
    obtain ⟨i', _, rfl⟩ := List.mem_map.mp hcol'
    rw [vec_mult_ok_range (by simp [hlhslen])]
  refine ⟨_, _, houter, hmr, ?_⟩
  rw [List.map_map, getD_map_range _ _ hi]
  simp only [Function.comp]
  congr 1
  congr 1
  apply List.map_congr_left
  intro k hk
  have hkn := List.mem_range.mp hk
  congr 1
  rw [hswap, List.map_map, getD_map_range _ _ hkn]
  simp only [Function.comp]
  congr 1
  congr 1
  apply List.map_congr_left
  intro j hj
  have hjA : j < A.length := by
    rw [hA]
    exact List.mem_range.mp hj
  rw [getD_map_lt _ A [] 0 hjA]

/-- Witness for C5 on a one-row, one-column shard: `DB = [[3]]`, `A = [[2]]`
and `s = [5]` give `rhs[0][0] = 6` and `mult_right(s)[0] = 30`. -/
theorem mult_right_rhs_consistency_witness :
    ∃ rhs out,
      BaseParams.generate_params_rhs ⟨[[3]], 1, 10, 10⟩ [[2]] = some rhs ∧
      BaseParams.mult_right ⟨1, 1, 10, 10, rhs⟩ [5] = .ok out ∧
      out.getD 0 0 =
        ((List.range ([5] : List Nat).length).map fun k =>
          ([5] : List Nat).getD k 0 *
            (((List.range 1).map fun j =>
              (([[2]] : List (List Nat)).getD j []).getD k 0 *
                (([[3]] : List (List Nat)).getD 0 []).getD j 0).sum % Q)).sum % Q :=
  mult_right_rhs_consistency ⟨[[3]], 1, 10, 10⟩ [[2]] [5] 0
    (by decide) (by decide) (by decide) (by decide) (by decide) (by decide)

end FrodoPIR
